import Mathlib

/-!
# kubespy: the change-tracking loops of `cmd/kubespy/main.go`

The two commands `changes` and `status` receive watch events one after the
other, keep the last object (or the last status) they saw, and print either
the first object in full or a diff against the previous one.

The development has three layers.

* The data model: JSON-like documents as they sit behind Go's
  `interface{}` after decoding, and objects `map[string]interface{}`.
* The two loop bodies, translated branch by branch from
  `changesCmd.Run` and `statusCmd.Run`.  The routines the loops call in
  `encoding/json`, `gojsondiff` and `gojsondiff/formatter` are arguments of
  the embedding (`Lib`), with the result shapes the Go signatures have.
* The tree diff and the renderers described in the specification, which
  give one concrete `Lib` to evaluate the loops on.
-/

namespace Kubespy

/-! ## Documents -/

mutual
/-- A decoded JSON value, the dynamic content of an `interface{}`.  Numbers
are kept as integers: the loops never look inside a number. -/
inductive Doc where
  | null
  | bool (b : Bool)
  | num (n : Int)
  | str (s : String)
  | seq (xs : Docs)
  | map (m : Fields)
  deriving DecidableEq
/-- The elements of a `[]interface{}`. -/
inductive Docs where
  | nil
  | cons (d : Doc) (rest : Docs)
  deriving DecidableEq
/-- The entries of a `map[string]interface{}`, as an association list. -/
inductive Fields where
  | nil
  | cons (k : String) (v : Doc) (rest : Fields)
  deriving DecidableEq
end

/-- Map indexing `m[key]` with the comma-ok result: the first entry for
`key`, or `none` when the key is absent. -/
def Fields.get? : Fields → String → Option Doc
  | .nil, _ => none
  | .cons k v rest, key => if k = key then some v else rest.get? key

/-- The keys of a map, in entry order. -/
def Fields.keys : Fields → List String
  | .nil => []
  | .cons k _ rest => k :: rest.keys

mutual
/-- Keys are unique in every map of the document (what a Go map
guarantees by construction). -/
def Doc.uniqueKeys : Doc → Bool
  | .seq xs => xs.uniqueKeys
  | .map m => m.uniqueKeys
  | _ => true
/-- Every element of the sequence has unique keys. -/
def Docs.uniqueKeys : Docs → Bool
  | .nil => true
  | .cons d rest => d.uniqueKeys && rest.uniqueKeys
/-- No key occurs twice among the entries, and every value has unique keys. -/
def Fields.uniqueKeys : Fields → Bool
  | .nil => true
  | .cons k v rest => (rest.get? k).isNone && v.uniqueKeys && rest.uniqueKeys
end

/-! ## Events and output -/

/-- A watch event: `e.Type` (a `watch.EventType`, which is a string) and the
content `o.Object` of the `*unstructured.Unstructured` it carries.  The
unchecked type assertion on `e.Object` leaves no other kind of event to
the loop body. -/
structure Event where
  type : String
  object : Fields
  deriving DecidableEq

/-- One `Println` on standard output, tagged with the styling it went
through: the bold blue `heading`, `color.GreenString`, or none. -/
inductive Line where
  | heading (text : String)
  | green (text : String)
  | plain (text : String)
  deriving DecidableEq

/-- How an iteration of the loop ends: it falls through to the next
receive with the tracker variable (`last`, `lastStatus`) set, or
`log.Fatal` ends the process.  In the tracker `none` is Go's `nil`. -/
inductive Ctl where
  | next (last : Option Fields)
  | fatal (err : String)
  deriving DecidableEq

/-- The library routines the loops call, over a diff type `δ`:
`json.MarshalIndent(v, "", "  ")`, `gojsondiff.New().CompareObjects`,
`Diff.Modified` and `formatter.NewAsciiFormatter(left, cfg).Format(diff)`. -/
structure Lib (δ : Type) where
  marshalIndent : Fields → Except String String
  compareObjects : Fields → Fields → δ
  modified : δ → Bool
  format : Fields → δ → Except String String

/-- What one iteration of a loop did: the lines it printed, the value of
the local `diff` when the `else` branch ran, and how it ended. -/
structure Iter (δ : Type) where
  out : List Line
  diff : Option δ
  ctl : Ctl
  deriving DecidableEq

/-! ## The loops -/

/-- The `if last == nil` branch (main.go 49-55 and 104-110): the heading,
then the indented JSON of `o`, unless marshalling fails. -/
def created {δ : Type} (L : Lib δ) (o : Fields) : Iter δ :=
  match L.marshalIndent o with
  | .error err => ⟨[.heading "CREATED"], none, .fatal err⟩
  | .ok ojson => ⟨[.heading "CREATED", .green ojson], none, .next (some o)⟩

/-- The `else` branch (main.go 57-68 and 112-123): the event type as a
heading, then the formatted diff when it is modified. -/
def changed {δ : Type} (L : Lib δ) (type : String) (last o : Fields) : Iter δ :=
  let diff := L.compareObjects last o
  if L.modified diff then
    match L.format last diff with
    | .error err => ⟨[.heading type], some diff, .fatal err⟩
    | .ok text => ⟨[.heading type, .plain text], some diff, .next (some o)⟩
  else ⟨[.heading type], some diff, .next (some o)⟩

/-- One receive of `changesCmd.Run` (main.go 46-70), from the value of
`last` before it. -/
def changesCmd.step {δ : Type} (L : Lib δ) (last : Option Fields) (e : Event) : Iter δ :=
  match last with
  | none => created L e.object
  | some l => changed L e.type l e.object

/-- The status projection of `statusCmd.Run` (main.go 94-101): the map
under "status", or a fresh empty map from `make`.  Both are maps that
exist, the first because a decoded JSON object is never the nil map, so
the result is never `nil`. -/
def currStatus (o : Fields) : Fields :=
  match o.get? "status" with
  | none => .nil
  | some (.map status) => status
  | some _ => .nil

/-- One receive of `statusCmd.Run` (main.go 92-125), from the value of
`lastStatus` before it. -/
def statusCmd.step {δ : Type} (L : Lib δ) (lastStatus : Option Fields) (e : Event) : Iter δ :=
  match lastStatus with
  | none => created L (currStatus e.object)
  | some l => changed L e.type l (currStatus e.object)

/-- A loop run on the events received so far: one `Iter` for every event
that was processed, stopping after an iteration that ended the process. -/
def run {δ : Type} (step : Option Fields → Event → Iter δ) :
    Option Fields → List Event → List (Iter δ)
  | _, [] => []
  | last, e :: es =>
    step last e ::
      (match (step last e).ctl with
       | .next last' => run step last' es
       | .fatal _ => [])

/-- The loop of `changesCmd.Run`, started with `last == nil`. -/
def changesCmd.Run {δ : Type} (L : Lib δ) (events : List Event) : List (Iter δ) :=
  run (changesCmd.step L) none events

/-- The loop of `statusCmd.Run`, started with `lastStatus == nil`. -/
def statusCmd.Run {δ : Type} (L : Lib δ) (events : List Event) : List (Iter δ) :=
  run (statusCmd.step L) none events

/-! ## The tree diff and the renderers of the specification -/

/-- One step of a path into a document: a map key or a sequence index. -/
inductive PathElem where
  | key (k : String)
  | index (i : Nat)
  deriving DecidableEq

/-- One structural change, located by its path. -/
inductive DiffOp where
  | add (path : List PathElem) (newValue : Doc)
  | remove (path : List PathElem) (oldValue : Doc)
  | modify (path : List PathElem) (oldValue newValue : Doc)
  deriving DecidableEq

/-- The path of an operation. -/
def DiffOp.path : DiffOp → List PathElem
  | .add p _ => p
  | .remove p _ => p
  | .modify p _ _ => p

/-- Modelled from the spec: the additions of the sequence case of
`Compare` (section 4.1), the library diff it stands for being outside the
repository: an index valid only in `current` gives an Add. -/
def addItems (path : List PathElem) (i : Nat) : Docs → List DiffOp
  | .nil => []
  | .cons y ys => .add (path ++ [.index i]) y :: addItems path (i + 1) ys

/-- Modelled from the spec: the additions of the mapping case of `Compare`
(section 4.1), the library diff it stands for being outside the
repository: a key only in `current` gives an Add. -/
def addKeys (path : List PathElem) (previous : Fields) : Fields → List DiffOp
  | .nil => []
  | .cons k w rest =>
    match previous.get? k with
    | none => .add (path ++ [.key k]) w :: addKeys path previous rest
    | some _ => addKeys path previous rest

mutual
/-- Modelled from the spec: `TreeDiffEngine.Compare` (section 4.1), for the
diff of the `gojsondiff` library the loops call, which is outside the
repository.  By case on the two kinds: two mappings are compared key by
key, two sequences index by index, equal scalars give nothing, and unequal
scalars or mismatched kinds give one Modify. -/
def Compare (path : List PathElem) : Doc → Doc → List DiffOp
  | .map a, .map b => compareKeys path a b ++ addKeys path a b
  | .seq a, .seq b => compareItems path 0 a b
  | .null, .null => []
  | .bool x, .bool y => if x = y then [] else [.modify path (.bool x) (.bool y)]
  | .num x, .num y => if x = y then [] else [.modify path (.num x) (.num y)]
  | .str x, .str y => if x = y then [] else [.modify path (.str x) (.str y)]
  | p, c => [.modify path p c]
/-- Modelled from the spec: the keys of `previous` in the mapping case of
`Compare`: a key only in `previous` gives a Remove, a key in both recurses
with the path extended by the key. -/
def compareKeys (path : List PathElem) : Fields → Fields → List DiffOp
  | .nil, _ => []
  | .cons k v rest, current =>
    (match current.get? k with
     | some w => Compare (path ++ [.key k]) v w
     | none => [.remove (path ++ [.key k]) v]) ++ compareKeys path rest current
/-- Modelled from the spec: the sequence case of `Compare`, by position:
an index valid only in `previous` gives a Remove, one valid only in
`current` an Add, one valid in both recurses. -/
def compareItems (path : List PathElem) (i : Nat) : Docs → Docs → List DiffOp
  | .nil, ys => addItems path i ys
  | .cons x xs, .nil => .remove (path ++ [.index i]) x :: compareItems path (i + 1) xs .nil
  | .cons x xs, .cons y ys =>
    Compare (path ++ [.index i]) x y ++ compareItems path (i + 1) xs ys
end

mutual
/-- Deep equality of two documents: same kind, equal scalars, sequences
equal position by position, mappings with the same keys and deeply equal
values at each key (the entry order of a mapping does not count). -/
def deepEqual : Doc → Doc → Bool
  | .null, .null => true
  | .bool x, .bool y => x == y
  | .num x, .num y => x == y
  | .str x, .str y => x == y
  | .seq a, .seq b => itemsEqual a b
  | .map a, .map b => entriesEqual a b && b.keys.all (fun k => (a.get? k).isSome)
  | _, _ => false
/-- Position by position, with the same length. -/
def itemsEqual : Docs → Docs → Bool
  | .nil, .nil => true
  | .cons x xs, .cons y ys => deepEqual x y && itemsEqual xs ys
  | _, _ => false
/-- Every entry of the first map has a deeply equal value in the second. -/
def entriesEqual : Fields → Fields → Bool
  | .nil, _ => true
  | .cons k v rest, b =>
    (match b.get? k with
     | some w => deepEqual v w
     | none => false) && entriesEqual rest b
end

mutual
/-- Modelled from the spec: the canonical pretty-printed serialization of
section 4.4 (the `encoding/json` routine it stands for is outside the
repository), indented by two spaces per level, `ind` being the indentation
of the enclosing line. -/
def Doc.render (ind : String) : Doc → String
  | .null => "null"
  | .bool b => if b then "true" else "false"
  | .num n => toString n
  | .str s => s.quote
  | .seq .nil => "[]"
  | .seq (.cons x xs) =>
    "[\n" ++ ind ++ "  " ++ x.render (ind ++ "  ") ++ xs.renderRest (ind ++ "  ")
      ++ "\n" ++ ind ++ "]"
  | .map m => m.render ind
/-- Modelled from the spec: the elements of a sequence after the first. -/
def Docs.renderRest (ind : String) : Docs → String
  | .nil => ""
  | .cons x xs => ",\n" ++ ind ++ x.render ind ++ xs.renderRest ind
/-- Modelled from the spec: a mapping, one entry per line. -/
def Fields.render (ind : String) : Fields → String
  | .nil => "\x7b\x7d"
  | .cons k v rest =>
    "\x7b\n" ++ ind ++ "  " ++ k.quote ++ ": " ++ v.render (ind ++ "  ")
      ++ rest.renderRest (ind ++ "  ") ++ "\n" ++ ind ++ "\x7d"
/-- Modelled from the spec: the entries of a mapping after the first. -/
def Fields.renderRest (ind : String) : Fields → String
  | .nil => ""
  | .cons k v rest => ",\n" ++ ind ++ k.quote ++ ": " ++ v.render ind ++ rest.renderRest ind
end

/-- Modelled from the spec: a path, slash-joined (section 4.4). -/
def renderPath (p : List PathElem) : String :=
  "/".intercalate (p.map fun
    | .key k => k
    | .index i => toString i)

/-- Modelled from the spec: the display line of one operation (section
4.4): `+` for an Add, `-` for a Remove, old and new value for a Modify. -/
def DiffOp.render : DiffOp → String
  | .add p v => "+ " ++ renderPath p ++ ": " ++ v.render ""
  | .remove p v => "- " ++ renderPath p ++ ": " ++ v.render ""
  | .modify p old new => "~ " ++ renderPath p ++ ": " ++ old.render "" ++ " => " ++ new.render ""

/-- Modelled from the spec: the tree diff engine and the renderer of
sections 4.1 and 4.4 put in the place of the libraries the loops call:
a diff is the list of its operations, it is modified when the list is not
empty, and neither renderer fails. -/
def specLib : Lib (List DiffOp) where
  marshalIndent o := .ok (o.render "")
  compareObjects last o := Compare [] (.map last) (.map o)
  modified diff := !diff.isEmpty
  format _ diff := .ok ("\n".intercalate (diff.map DiffOp.render))

/-- The event with its object replaced by the status projection. -/
def Event.status (e : Event) : Event := ⟨e.type, currStatus e.object⟩

/-! ## Sample data -/

/-- The status `{"phase": "Pending"}`. -/
def pending : Fields := .cons "phase" (.str "Pending") .nil

/-- The status `{"phase": "Running"}`. -/
def running : Fields := .cons "phase" (.str "Running") .nil

/-- A pod object with a name and the given status. -/
def pod (name : String) (status : Doc) : Fields :=
  .cons "metadata" (.map (.cons "name" (.str name) .nil)) (.cons "status" status .nil)

/-- An object without a `status` key. -/
def bare : Fields := .cons "kind" (.str "ConfigMap") .nil

/-- A stream: the pod appears pending, is announced again unchanged, then
runs. -/
def sampleEvents : List Event :=
  [⟨"ADDED", pod "web" (.map pending)⟩, ⟨"MODIFIED", pod "web" (.map pending)⟩,
   ⟨"MODIFIED", pod "web" (.map running)⟩]

/-- The objects of `sampleEvents` under other event types. -/
def relabelled : List Event :=
  [⟨"ERROR", pod "web" (.map pending)⟩, ⟨"DELETED", pod "web" (.map pending)⟩,
   ⟨"BOOKMARK", pod "web" (.map running)⟩]

/-- The events of `sampleEvents` for a pod with another name. -/
def renamed : List Event :=
  [⟨"ADDED", pod "db" (.map pending)⟩, ⟨"MODIFIED", pod "db" (.map pending)⟩,
   ⟨"MODIFIED", pod "db" (.map running)⟩]

/-! ## The loop bodies -/

theorem created_out_head {δ : Type} (L : Lib δ) (o : Fields) :
    (created L o).out.head? = some (.heading "CREATED") ∧ (created L o).diff = none := by
  unfold created
  cases L.marshalIndent o <;> simp

theorem changed_out_head {δ : Type} (L : Lib δ) (type : String) (last o : Fields) :
    (changed L type last o).out.head? = some (.heading type) ∧
      (changed L type last o).diff = some (L.compareObjects last o) := by
  unfold changed
  by_cases hm : L.modified (L.compareObjects last o) = true
  · cases hf : L.format last (L.compareObjects last o) <;> simp [hm, hf]
  · simp [hm]

theorem created_ctl {δ : Type} (L : Lib δ) (o : Fields) :
    (created L o).ctl = .next (some o) ∨
      ∃ err, L.marshalIndent o = .error err ∧ (created L o).ctl = .fatal err := by
  unfold created
  cases L.marshalIndent o <;> simp

theorem changed_ctl {δ : Type} (L : Lib δ) (type : String) (last o : Fields) :
    (changed L type last o).ctl = .next (some o) ∨
      ∃ err, L.modified (L.compareObjects last o) = true ∧
        L.format last (L.compareObjects last o) = .error err ∧
        (changed L type last o).ctl = .fatal err := by
  unfold changed
  by_cases hm : L.modified (L.compareObjects last o) = true
  · cases hf : L.format last (L.compareObjects last o) <;> simp [hm, hf]
  · simp [hm]

theorem changes_step_next {δ : Type} (L : Lib δ) (last st : Option Fields) (e : Event)
    (h : (changesCmd.step L last e).ctl = .next st) : st = some e.object := by
  cases last with
  | none =>
    rcases created_ctl L e.object with h1 | ⟨err, _, h1⟩ <;>
      simp [changesCmd.step, h1] at h
    exact h.symm
  | some l =>
    rcases changed_ctl L e.type l e.object with h1 | ⟨err, _, _, h1⟩ <;>
      simp [changesCmd.step, h1] at h
    exact h.symm

/-- The status loop is the changes loop on the projected events. -/
theorem status_step_eq {δ : Type} (L : Lib δ) (last : Option Fields) (e : Event) :
    statusCmd.step L last e = changesCmd.step L last e.status := by
  cases last <;> rfl

theorem run_status_eq {δ : Type} (L : Lib δ) (events : List Event) (last : Option Fields) :
    run (statusCmd.step L) last events = run (changesCmd.step L) last (events.map Event.status) := by
  induction events generalizing last with
  | nil => rfl
  | cons e es ih =>
    simp only [run, List.map_cons, status_step_eq]
    cases (changesCmd.step L last e.status).ctl with
    | next st => simp [ih]
    | fatal err => rfl

/-! ## Claims on one iteration -/

/-- C3: the status projection is total and defaulting.  It returns the
value at key "status" when the key is present with a mapping as its value,
and the empty mapping when the key is absent or its value is null, a
boolean, a number, a string or a sequence; the three examples of the
specification evaluate as stated. -/
theorem status_projection_defaulting (o : Fields) :
    (∀ status, o.get? "status" = some (.map status) → currStatus o = status) ∧
    (o.get? "status" = none → currStatus o = .nil) ∧
    (o.get? "status" = some .null → currStatus o = .nil) ∧
    (∀ b, o.get? "status" = some (.bool b) → currStatus o = .nil) ∧
    (∀ n, o.get? "status" = some (.num n) → currStatus o = .nil) ∧
    (∀ t, o.get? "status" = some (.str t) → currStatus o = .nil) ∧
    (∀ xs, o.get? "status" = some (.seq xs) → currStatus o = .nil) ∧
    currStatus .nil = .nil ∧
    currStatus (.cons "status" (.num 5) .nil) = .nil ∧
    currStatus (.cons "status" (.map running) .nil) = running := by
  refine ⟨?_, ?_, ?_, ?_, ?_, ?_, ?_, rfl, rfl, rfl⟩ <;> intros <;> simp [currStatus, *]

/-- Witness of C3 on a pod whose status is a mapping and on an object
without status. -/
theorem status_projection_defaulting_witness :
    currStatus (pod "web" (.map running)) = running ∧ currStatus bare = .nil :=
  ⟨(status_projection_defaulting (pod "web" (.map running))).1 running (by decide),
   (status_projection_defaulting bare).2.1 (by decide)⟩

/-- C1: the first event is always a creation.  On a fresh tracker, whatever
the event's type, the changes loop prints the heading CREATED and then the
indented JSON of the object, the status loop prints the heading CREATED and
then the indented JSON of the projected status; no diff is computed, the
event's type is not printed, and the tracker is set to what was printed. -/
theorem first_event_created {δ : Type} (L : Lib δ) (e : Event) (ojson sjson : String)
    (ho : L.marshalIndent e.object = .ok ojson)
    (hs : L.marshalIndent (currStatus e.object) = .ok sjson) :
    changesCmd.step L none e
      = ⟨[.heading "CREATED", .green ojson], none, .next (some e.object)⟩ ∧
    statusCmd.step L none e
      = ⟨[.heading "CREATED", .green sjson], none, .next (some (currStatus e.object))⟩ ∧
    (changesCmd.Run L [e]).map (fun r => r.out) = [[.heading "CREATED", .green ojson]] ∧
    (statusCmd.Run L [e]).map (fun r => r.out) = [[.heading "CREATED", .green sjson]] := by
  simp [changesCmd.Run, statusCmd.Run, run, changesCmd.step, statusCmd.step, created, ho, hs]

/-- Witness of C1: a DELETED event that arrives first is printed as a
creation, in both modes. -/
theorem first_event_created_witness :
    changesCmd.step specLib none ⟨"DELETED", pod "web" (.map running)⟩
      = ⟨[.heading "CREATED", .green ((pod "web" (.map running)).render "")], none,
          .next (some (pod "web" (.map running)))⟩ ∧
    statusCmd.step specLib none ⟨"DELETED", pod "web" (.map running)⟩
      = ⟨[.heading "CREATED", .green (running.render "")], none, .next (some running)⟩ :=
  ⟨(first_event_created specLib ⟨"DELETED", pod "web" (.map running)⟩ _ _ rfl rfl).1,
   (first_event_created specLib ⟨"DELETED", pod "web" (.map running)⟩ _ _ rfl rfl).2.1⟩

/-- C4 as stated fails: an event that repeats the previous object has an
unmodified diff, and the changes loop still prints a line for it, the
heading with the event's type. -/
theorem empty_diff_prints_heading :
    specLib.modified (specLib.compareObjects bare bare) = false ∧
    (changesCmd.step specLib (some bare) ⟨"MODIFIED", bare⟩).out = [.heading "MODIFIED"] ∧
    ¬ (∀ (L : Lib (List DiffOp)) (last : Fields) (e : Event),
        L.modified (L.compareObjects last e.object) = false →
        (changesCmd.step L (some last) e).out = []) := by
  refine ⟨by decide, by decide, fun h => ?_⟩
  have h1 := h specLib bare ⟨"MODIFIED", bare⟩ (by decide)
  revert h1
  decide

/-- C4, amended: for an event that is not the first and whose diff against
the previous snapshot is unmodified, the loop prints the heading line with
the event's type and nothing after it, in changes mode and in status mode;
the formatter is not called and the process goes on. -/
theorem empty_diff_prints_no_body {δ : Type} (L : Lib δ) (last : Fields) (e : Event) :
    (L.modified (L.compareObjects last e.object) = false →
      changesCmd.step L (some last) e
        = ⟨[.heading e.type], some (L.compareObjects last e.object), .next (some e.object)⟩) ∧
    (L.modified (L.compareObjects last (currStatus e.object)) = false →
      statusCmd.step L (some last) e
        = ⟨[.heading e.type], some (L.compareObjects last (currStatus e.object)),
            .next (some (currStatus e.object))⟩) := by
  constructor <;> intro h <;> simp [changesCmd.step, statusCmd.step, changed, h]

/-- Witness of the amended C4: the same pod twice. -/
theorem empty_diff_prints_no_body_witness :
    changesCmd.step specLib (some (pod "web" (.map running)))
        ⟨"MODIFIED", pod "web" (.map running)⟩
      = ⟨[.heading "MODIFIED"], some [], .next (some (pod "web" (.map running)))⟩ ∧
    statusCmd.step specLib (some running) ⟨"MODIFIED", pod "web" (.map running)⟩
      = ⟨[.heading "MODIFIED"], some [], .next (some running)⟩ :=
  ⟨(empty_diff_prints_no_body specLib (pod "web" (.map running))
      ⟨"MODIFIED", pod "web" (.map running)⟩).1 (by decide),
   (empty_diff_prints_no_body specLib running
      ⟨"MODIFIED", pod "web" (.map running)⟩).2 (by decide)⟩

/-! ## Runs -/

theorem run_all_processed {δ : Type} (step : Option Fields → Event → Iter δ)
    (events : List Event) (last : Option Fields) :
    (run step last events).length = events.length ∨
      ∃ r ∈ run step last events, ∃ err, r.ctl = .fatal err := by
  induction events generalizing last with
  | nil => left; rfl
  | cons e es ih =>
    cases hc : (step last e).ctl with
    | next st =>
      rcases ih st with h | ⟨r, hr, err, herr⟩
      · left; simp [run, hc, h]
      · right; exact ⟨r, by simp [run, hc, hr], err, herr⟩
    | fatal err => right; exact ⟨step last e, by simp [run], err, hc⟩

theorem run_changes_some {δ : Type} (L : Lib δ) (events : List Event) (prev : Fields) :
    ∀ r ∈ run (changesCmd.step L) (some prev) events,
      ∃ p e, e ∈ events ∧ r = changed L e.type p e.object := by
  induction events generalizing prev with
  | nil => intro r hr; simp [run] at hr
  | cons e es ih =>
    intro r hr
    simp only [run, List.mem_cons] at hr
    rcases hr with rfl | hr
    · exact ⟨prev, e, by simp, rfl⟩
    · cases hc : (changesCmd.step L (some prev) e).ctl with
      | next st =>
        rw [hc] at hr
        have hst := changes_step_next L _ _ _ hc
        subst hst
        obtain ⟨p, x, hx, hrx⟩ := ih _ r hr
        exact ⟨p, x, by simp [hx], hrx⟩
      | fatal err => rw [hc] at hr; simp at hr

theorem run_changes_tail {δ : Type} (L : Lib δ) (e : Event) (es : List Event)
    (last : Option Fields) :
    ∀ r ∈ (run (changesCmd.step L) last (e :: es)).tail,
      ∃ p x, x ∈ es ∧ r = changed L x.type p x.object := by
  intro r hr
  simp only [run, List.tail_cons] at hr
  cases hc : (changesCmd.step L last e).ctl with
  | next st =>
    rw [hc] at hr
    have hst := changes_step_next L _ _ _ hc
    subst hst
    exact run_changes_some L es _ r hr
  | fatal err => rw [hc] at hr; simp at hr

theorem changed_ctl_ne {δ : Type} (L : Lib δ) (type : String) (last o : Fields) :
    (changed L type last o).ctl ≠ .next none := by
  rcases changed_ctl L type last o with h | ⟨err, _, _, h⟩ <;> simp [h]

theorem created_ctl_ne {δ : Type} (L : Lib δ) (o : Fields) :
    (created L o).ctl ≠ .next none := by
  rcases created_ctl L o with h | ⟨err, _, h⟩ <;> simp [h]

theorem run_changes_succ {δ : Type} (L : Lib δ) (i : Nat) :
    ∀ (a : Event) (events : List Event) (last : Option Fields) (r : Iter δ),
      (run (changesCmd.step L) last (a :: events))[i + 1]? = some r →
      ∃ x y, (a :: events)[i]? = some x ∧ (a :: events)[i + 1]? = some y ∧
        r = changed L y.type x.object y.object := by
  induction i with
  | zero =>
    intro a events last r h
    simp only [run, List.getElem?_cons_succ] at h
    cases hc : (changesCmd.step L last a).ctl with
    | next st =>
      rw [hc] at h
      have hst := changes_step_next L _ _ _ hc
      subst hst
      cases events with
      | nil => simp [run] at h
      | cons b es =>
        simp only [run, List.getElem?_cons_zero, Option.some.injEq] at h
        subst h
        exact ⟨a, b, by simp, by simp, rfl⟩
    | fatal err => rw [hc] at h; simp at h
  | succ j ih =>
    intro a events last r h
    simp only [run, List.getElem?_cons_succ] at h
    cases hc : (changesCmd.step L last a).ctl with
    | next st =>
      rw [hc] at h
      cases events with
      | nil => simp [run] at h
      | cons b es =>
        obtain ⟨x, y, hx, hy, hd⟩ := ih b es st r (by simpa [run] using h)
        exact ⟨x, y, by simpa using hx, by simpa using hy, hd⟩
    | fatal err => rw [hc] at h; simp at h

theorem changed_type_irrelevant {δ : Type} (L : Lib δ) (t1 t2 : String) (last o : Fields) :
    (changed L t1 last o).ctl = (changed L t2 last o).ctl ∧
    (changed L t1 last o).diff = (changed L t2 last o).diff ∧
    (changed L t1 last o).out.tail = (changed L t2 last o).out.tail := by
  unfold changed
  by_cases hm : L.modified (L.compareObjects last o) = true
  · cases hf : L.format last (L.compareObjects last o) <;> simp [hm, hf]
  · simp [hm]

theorem run_changes_types {δ : Type} (L : Lib δ) (s1 : List Event) :
    ∀ (s2 : List Event) (last : Option Fields),
      s1.map (fun e => e.object) = s2.map (fun e => e.object) →
      List.Forall₂ (fun r1 r2 => r1.ctl = r2.ctl ∧ r1.diff = r2.diff ∧ r1.out.tail = r2.out.tail)
        (run (changesCmd.step L) last s1) (run (changesCmd.step L) last s2) := by
  induction s1 with
  | nil =>
    intro s2 last h
    cases s2 with
    | nil => exact List.Forall₂.nil
    | cons b s2 => simp at h
  | cons a s1 ih =>
    intro s2 last h
    cases s2 with
    | nil => simp at h
    | cons b s2 =>
      simp only [List.map_cons, List.cons.injEq] at h
      obtain ⟨hab, hrest⟩ := h
      have hstep : (changesCmd.step L last a).ctl = (changesCmd.step L last b).ctl ∧
          (changesCmd.step L last a).diff = (changesCmd.step L last b).diff ∧
          (changesCmd.step L last a).out.tail = (changesCmd.step L last b).out.tail := by
        cases last with
        | none => simp [changesCmd.step, hab]
        | some l =>
          simp only [changesCmd.step, hab]
          exact changed_type_irrelevant L a.type b.type l b.object
      simp only [run]
      refine List.Forall₂.cons hstep ?_
      rw [← hstep.1]
      cases (changesCmd.step L last a).ctl with
      | next st => exact ih s2 st hrest
      | fatal err => exact List.Forall₂.nil

theorem map_status_objects (s1 s2 : List Event)
    (h : s1.map (fun e => e.object) = s2.map (fun e => e.object)) :
    (s1.map Event.status).map (fun e => e.object)
      = (s2.map Event.status).map (fun e => e.object) := by
  have := congrArg (List.map currStatus) h
  simpa [List.map_map, Function.comp_def, Event.status] using this

theorem changed_count_created {δ : Type} (L : Lib δ) (type : String) (last o : Fields)
    (h : type ≠ "CREATED") : (changed L type last o).out.count (.heading "CREATED") = 0 := by
  have h1 : (Line.heading type == Line.heading "CREATED") = false := by simpa using h
  unfold changed
  by_cases hm : L.modified (L.compareObjects last o) = true
  · cases hf : L.format last (L.compareObjects last o) <;>
      simp [hm, hf, List.count_cons, h1]
  · simp [hm, List.count_cons, h1]

theorem created_count_created {δ : Type} (L : Lib δ) (o : Fields) :
    (created L o).out.count (.heading "CREATED") = 1 := by
  unfold created
  cases L.marshalIndent o <;> simp [List.count_cons]

theorem join_count_zero {δ : Type} (t : List (Iter δ)) (x : Line)
    (h : ∀ r ∈ t, r.out.count x = 0) : (t.map fun r => r.out).flatten.count x = 0 := by
  induction t with
  | nil => simp
  | cons r t ih =>
    simp only [List.map_cons, List.flatten_cons, List.count_append]
    rw [h r (by simp), ih (fun r hr => h r (by simp [hr]))]

/-! ## Claims on runs -/

/-- C2: the baseline always advances.  An iteration that does not end the
process leaves the tracker at the projected object of its event, whichever
branch it took, and the process ends only on an error of the marshaller or
of the formatter; so in every run the diff computed for the event at
position n >= 2 is the comparison of the projected objects of the events
n-1 and n, and every event is processed unless the process was ended. -/
theorem baseline_advances {δ : Type} (L : Lib δ) :
    (∀ last e, (changesCmd.step L last e).ctl = .next (some e.object) ∨
      ∃ err, (changesCmd.step L last e).ctl = .fatal err ∧
        (L.marshalIndent e.object = .error err ∨
          ∃ l, L.format l (L.compareObjects l e.object) = .error err)) ∧
    (∀ last e, (statusCmd.step L last e).ctl = .next (some (currStatus e.object)) ∨
      ∃ err, (statusCmd.step L last e).ctl = .fatal err ∧
        (L.marshalIndent (currStatus e.object) = .error err ∨
          ∃ l, L.format l (L.compareObjects l (currStatus e.object)) = .error err)) ∧
    (∀ events i r, (changesCmd.Run L events)[i + 1]? = some r →
      ∃ x y, events[i]? = some x ∧ events[i + 1]? = some y ∧
        r.diff = some (L.compareObjects x.object y.object)) ∧
    (∀ events i r, (statusCmd.Run L events)[i + 1]? = some r →
      ∃ x y, events[i]? = some x ∧ events[i + 1]? = some y ∧
        r.diff = some (L.compareObjects (currStatus x.object) (currStatus y.object))) ∧
    (∀ events, (changesCmd.Run L events).length = events.length ∨
      ∃ r ∈ changesCmd.Run L events, ∃ err, r.ctl = .fatal err) ∧
    (∀ events, (statusCmd.Run L events).length = events.length ∨
      ∃ r ∈ statusCmd.Run L events, ∃ err, r.ctl = .fatal err) := by
  have hstep : ∀ (last : Option Fields) (e : Event),
      (changesCmd.step L last e).ctl = .next (some e.object) ∨
      ∃ err, (changesCmd.step L last e).ctl = .fatal err ∧
        (L.marshalIndent e.object = .error err ∨
          ∃ l, L.format l (L.compareObjects l e.object) = .error err) := by
    intro last e
    cases last with
    | none =>
      rcases created_ctl L e.object with h | ⟨err, he, h⟩
      · exact Or.inl h
      · exact Or.inr ⟨err, h, Or.inl he⟩
    | some l =>
      rcases changed_ctl L e.type l e.object with h | ⟨err, _, he, h⟩
      · exact Or.inl h
      · exact Or.inr ⟨err, h, Or.inr ⟨l, he⟩⟩
  have hrun : ∀ (events : List Event) (i : Nat) (r : Iter δ),
      (changesCmd.Run L events)[i + 1]? = some r →
      ∃ x y, events[i]? = some x ∧ events[i + 1]? = some y ∧
        r.diff = some (L.compareObjects x.object y.object) := by
    intro events i r h
    cases events with
    | nil => simp [changesCmd.Run, run] at h
    | cons a es =>
      obtain ⟨x, y, hx, hy, hr⟩ := run_changes_succ L i a es none r h
      exact ⟨x, y, hx, hy, by rw [hr]; exact (changed_out_head L _ _ _).2⟩
  refine ⟨hstep, ?_, hrun, ?_, fun events => run_all_processed _ events none,
    fun events => run_all_processed _ events none⟩
  · intro last e
    rw [status_step_eq]
    exact hstep last e.status
  · intro events i r h
    rw [statusCmd.Run, run_status_eq] at h
    obtain ⟨x, y, hx, hy, hr⟩ := hrun (events.map Event.status) i r h
    rw [List.getElem?_map] at hx hy
    cases hxe : events[i]? with
    | none => simp [hxe] at hx
    | some x0 =>
      cases hye : events[i + 1]? with
      | none => simp [hye] at hy
      | some y0 =>
        simp only [hxe, hye, Option.map_some', Option.some.injEq] at hx hy
        subst hx hy
        exact ⟨x0, y0, rfl, rfl, hr⟩

/-- Witness of C2: the second event repeats the first, and the diff of the
third event is taken against the second. -/
theorem baseline_advances_witness :
    (changesCmd.Run specLib sampleEvents)[2]?
      = some (changed specLib "MODIFIED" (pod "web" (.map pending)) (pod "web" (.map running))) ∧
    ∃ x y, sampleEvents[1]? = some x ∧ sampleEvents[2]? = some y ∧
      (changed specLib "MODIFIED" (pod "web" (.map pending)) (pod "web" (.map running))).diff
        = some (specLib.compareObjects x.object y.object) :=
  ⟨rfl, (baseline_advances specLib).2.2.1 sampleEvents 1 _ rfl⟩

/-- C7: the event type is display-only.  Two streams that carry the same
objects position by position, with any event types, go through the same
tracker states, compute the same diffs and print the same lines after the
first line of each iteration; the first iteration is the same in both runs,
and the first line of every later iteration is the heading with the type
of its event.  This holds in changes mode and in status mode. -/
theorem kind_display_only {δ : Type} (L : Lib δ) (s1 s2 : List Event)
    (h : s1.map (fun e => e.object) = s2.map (fun e => e.object)) :
    List.Forall₂ (fun r1 r2 => r1.ctl = r2.ctl ∧ r1.diff = r2.diff ∧ r1.out.tail = r2.out.tail)
      (changesCmd.Run L s1) (changesCmd.Run L s2) ∧
    (changesCmd.Run L s1).head? = (changesCmd.Run L s2).head? ∧
    (∀ i r, (changesCmd.Run L s1)[i + 1]? = some r →
      ∃ e, s1[i + 1]? = some e ∧ r.out.head? = some (.heading e.type)) ∧
    List.Forall₂ (fun r1 r2 => r1.ctl = r2.ctl ∧ r1.diff = r2.diff ∧ r1.out.tail = r2.out.tail)
      (statusCmd.Run L s1) (statusCmd.Run L s2) ∧
    (statusCmd.Run L s1).head? = (statusCmd.Run L s2).head? ∧
    (∀ i r, (statusCmd.Run L s1)[i + 1]? = some r →
      ∃ e, s1[i + 1]? = some e ∧ r.out.head? = some (.heading e.type)) := by
  have hhead : ∀ t1 t2 : List Event,
      t1.map (fun e => e.object) = t2.map (fun e => e.object) →
      (changesCmd.Run L t1).head? = (changesCmd.Run L t2).head? := by
    intro t1 t2 ht
    cases t1 with
    | nil =>
      cases t2 with
      | nil => rfl
      | cons b t2 => simp at ht
    | cons a t1 =>
      cases t2 with
      | nil => simp at ht
      | cons b t2 =>
        simp only [List.map_cons, List.cons.injEq] at ht
        simp [changesCmd.Run, run, changesCmd.step, ht.1]
  have hheading : ∀ (t : List Event) (i : Nat) (r : Iter δ),
      (changesCmd.Run L t)[i + 1]? = some r →
      ∃ e, t[i + 1]? = some e ∧ r.out.head? = some (.heading e.type) := by
    intro t i r hr
    cases t with
    | nil => simp [changesCmd.Run, run] at hr
    | cons a es =>
      obtain ⟨x, y, _, hy, hxy⟩ := run_changes_succ L i a es none r hr
      exact ⟨y, hy, by rw [hxy]; exact (changed_out_head L _ _ _).1⟩
  have hs := map_status_objects s1 s2 h
  refine ⟨run_changes_types L s1 s2 none h, hhead s1 s2 h, hheading s1, ?_, ?_, ?_⟩
  · simp only [statusCmd.Run, run_status_eq]
    exact run_changes_types L _ _ none hs
  · simp only [statusCmd.Run, run_status_eq]
    exact hhead _ _ hs
  · intro i r hr
    rw [statusCmd.Run, run_status_eq] at hr
    obtain ⟨e, he, hre⟩ := hheading (s1.map Event.status) i r hr
    rw [List.getElem?_map] at he
    cases hxe : s1[i + 1]? with
    | none => simp [hxe] at he
    | some x0 =>
      simp only [hxe, Option.map_some', Option.some.injEq] at he
      subst he
      exact ⟨x0, rfl, hre⟩

/-- Witness of C7: the sample stream and the same objects announced as
ERROR, DELETED, BOOKMARK. -/
theorem kind_display_only_witness :
    sampleEvents.map (fun e => e.object) = relabelled.map (fun e => e.object) ∧
    List.Forall₂ (fun r1 r2 => r1.ctl = r2.ctl ∧ r1.diff = r2.diff ∧ r1.out.tail = r2.out.tail)
      (changesCmd.Run specLib sampleEvents) (changesCmd.Run specLib relabelled) ∧
    (changesCmd.Run specLib sampleEvents).head? = (changesCmd.Run specLib relabelled).head? :=
  ⟨by decide, (kind_display_only specLib sampleEvents relabelled (by decide)).1,
    (kind_display_only specLib sampleEvents relabelled (by decide)).2.1⟩

/-- C8: the two modes differ only in the view.  On every stream the status
loop does, iteration by iteration, what the changes loop does on the stream
in which each object is replaced by its status projection: the same lines,
the same diffs and the same tracker after each event. -/
theorem modes_differ_only_in_view {δ : Type} (L : Lib δ) (events : List Event) :
    statusCmd.Run L events
      = changesCmd.Run L (events.map fun e => ⟨e.type, currStatus e.object⟩) :=
  run_status_eq L events none

/-- C9: the tracker is never cleared.  No iteration leaves the tracker
empty; the first iteration of a run takes the creation branch and every
later one the change branch, so that the CREATED heading is printed once
when no event type is itself the text CREATED; and this holds in status
mode too, where the empty default projection is a snapshot like any
other. -/
theorem tracker_never_cleared {δ : Type} (L : Lib δ) (e : Event) (es : List Event) :
    (∀ r ∈ changesCmd.Run L (e :: es), r.ctl ≠ .next none) ∧
    (changesCmd.Run L (e :: es)).head? = some (created L e.object) ∧
    (∀ r ∈ (changesCmd.Run L (e :: es)).tail,
      ∃ p x, x ∈ es ∧ r = changed L x.type p x.object) ∧
    ((∀ x ∈ es, x.type ≠ "CREATED") →
      ((changesCmd.Run L (e :: es)).map fun r => r.out).flatten.count (.heading "CREATED") = 1) ∧
    (∀ r ∈ statusCmd.Run L (e :: es), r.ctl ≠ .next none) ∧
    (statusCmd.Run L (e :: es)).head? = some (created L (currStatus e.object)) ∧
    (∀ r ∈ (statusCmd.Run L (e :: es)).tail,
      ∃ p x, x ∈ es ∧ r = changed L x.type p (currStatus x.object)) ∧
    ((∀ x ∈ es, x.type ≠ "CREATED") →
      ((statusCmd.Run L (e :: es)).map fun r => r.out).flatten.count (.heading "CREATED") = 1) ∧
    (∀ x, currStatus e.object = .nil → statusCmd.step L (some (currStatus e.object)) x
      = changed L x.type .nil (currStatus x.object)) := by
  have key : ∀ (a : Event) (as : List Event),
      (∀ r ∈ changesCmd.Run L (a :: as), r.ctl ≠ .next none) ∧
      (changesCmd.Run L (a :: as)).head? = some (created L a.object) ∧
      (∀ r ∈ (changesCmd.Run L (a :: as)).tail,
        ∃ p x, x ∈ as ∧ r = changed L x.type p x.object) ∧
      ((∀ x ∈ as, x.type ≠ "CREATED") →
        ((changesCmd.Run L (a :: as)).map fun r => r.out).flatten.count
          (.heading "CREATED") = 1) := by
    intro a as
    have htail := run_changes_tail L a as none
    have hsplit : changesCmd.Run L (a :: as)
        = created L a.object :: (changesCmd.Run L (a :: as)).tail := by
      simp [changesCmd.Run, run, changesCmd.step]
    refine ⟨?_, by simp [changesCmd.Run, run, changesCmd.step], htail, ?_⟩
    · intro r hr
      rw [hsplit, List.mem_cons] at hr
      rcases hr with rfl | hr
      · exact created_ctl_ne L _
      · obtain ⟨p, x, _, rfl⟩ := htail r hr
        exact changed_ctl_ne L _ _ _
    · intro hk
      rw [hsplit, List.map_cons, List.flatten_cons, List.count_append, created_count_created,
        join_count_zero]
      intro r hr
      obtain ⟨p, x, hx, rfl⟩ := htail r hr
      exact changed_count_created L _ _ _ (hk x hx)
  obtain ⟨k1, k2, k3, k4⟩ := key e es
  obtain ⟨j1, j2, j3, j4⟩ := key e.status (es.map Event.status)
  simp only [changesCmd.Run, ← List.map_cons, ← run_status_eq] at j1 j2 j3 j4
  refine ⟨k1, k2, k3, k4, j1, j2, ?_, ?_, ?_⟩
  · intro r hr
    obtain ⟨p, x, hx, hrx⟩ := j3 r hr
    obtain ⟨x0, hx0, rfl⟩ := List.mem_map.1 hx
    exact ⟨p, x0, hx0, hrx⟩
  · intro hk
    apply j4
    intro x hx
    obtain ⟨x0, hx0, rfl⟩ := List.mem_map.1 hx
    exact hk x0 hx0
  · intro x hnil
    rw [hnil]
    rfl

/-- Witness of C9: two objects without status in status mode; the second
event is handled as a change against the empty status. -/
theorem tracker_never_cleared_witness :
    ((statusCmd.Run specLib [⟨"ADDED", bare⟩, ⟨"MODIFIED", bare⟩]).map fun r => r.out)
      = [[.heading "CREATED", .green "\x7b\x7d"], [.heading "MODIFIED"]] ∧
    ((statusCmd.Run specLib [⟨"ADDED", bare⟩, ⟨"MODIFIED", bare⟩]).map
      fun r => r.out).flatten.count (.heading "CREATED") = 1 :=
  ⟨by decide,
   (tracker_never_cleared specLib ⟨"ADDED", bare⟩ [⟨"MODIFIED", bare⟩]).2.2.2.2.2.2.2.1
     (by decide)⟩

/-- C10: status mode ignores everything outside "status".  Two streams
with the same event types whose objects agree, position by position, on
the value at key "status" (absent in both, or present and equal) give the
same run of the status loop: the same lines, diffs and tracker states. -/
theorem status_ignores_other_fields {δ : Type} (L : Lib δ) (s1 s2 : List Event)
    (h : List.Forall₂
      (fun a b => a.type = b.type ∧ a.object.get? "status" = b.object.get? "status") s1 s2) :
    statusCmd.Run L s1 = statusCmd.Run L s2 := by
  have hmap : s1.map Event.status = s2.map Event.status := by
    induction h with
    | nil => rfl
    | cons hab _ ih =>
      simp only [List.map_cons, ih, List.cons.injEq, and_true]
      simp [Event.status, currStatus, hab.1, hab.2]
  simp only [statusCmd.Run, run_status_eq, hmap]

/-- Witness of C10: the pod renamed between the two streams, with the same
statuses. -/
theorem status_ignores_other_fields_witness :
    List.Forall₂
      (fun a b => a.type = b.type ∧ a.object.get? "status" = b.object.get? "status")
      sampleEvents renamed ∧
    statusCmd.Run specLib sampleEvents = statusCmd.Run specLib renamed :=
  ⟨by decide, status_ignores_other_fields specLib sampleEvents renamed (by decide)⟩


/-! ## The tree diff -/

theorem get?_isSome_of_mem_keys : (m : Fields) → (k : String) → k ∈ m.keys →
    (m.get? k).isSome = true
  | .nil, k, h => by simp [Fields.keys] at h
  | .cons k0 v rest, k, h => by
    simp only [Fields.keys, List.mem_cons] at h
    by_cases hk : k0 = k
    · simp [Fields.get?, hk]
    · rcases h with h | h
      · exact absurd h.symm hk
      · simp [Fields.get?, hk, get?_isSome_of_mem_keys rest k h]

theorem mem_keys_of_get? : (m : Fields) → (k : String) → (v : Doc) → m.get? k = some v →
    k ∈ m.keys
  | .nil, k, v, h => by simp [Fields.get?] at h
  | .cons k0 v0 rest, k, v, h => by
    by_cases hk : k0 = k
    · simp [Fields.keys, hk]
    · simp only [Fields.get?, hk, if_false] at h
      simp [Fields.keys, mem_keys_of_get? rest k v h]

theorem addKeys_eq_nil (path : List PathElem) (previous : Fields) : (current : Fields) →
    (addKeys path previous current = [] ↔
      ∀ k ∈ current.keys, (previous.get? k).isSome = true)
  | .nil => by simp [addKeys, Fields.keys]
  | .cons k w rest => by
    cases hk : previous.get? k with
    | none => simp [addKeys, Fields.keys, hk]
    | some v => simp [addKeys, Fields.keys, hk, addKeys_eq_nil path previous rest]

mutual
theorem Compare_self (path : List PathElem) :
    (d : Doc) → d.uniqueKeys = true → Compare path d d = []
  | .null, _ => by simp [Compare]
  | .bool _, _ => by simp [Compare]
  | .num _, _ => by simp [Compare]
  | .str _, _ => by simp [Compare]
  | .seq xs, h => by
    simp only [Compare]
    exact compareItems_self path 0 xs (by simpa [Doc.uniqueKeys] using h)
  | .map m, h => by
    have hm : m.uniqueKeys = true := by simpa [Doc.uniqueKeys] using h
    simp only [Compare, List.append_eq_nil]
    exact ⟨compareKeys_sub path m m hm (fun _ _ hk => hk),
      (addKeys_eq_nil path m m).2 (get?_isSome_of_mem_keys m)⟩
theorem compareItems_self (path : List PathElem) (i : Nat) :
    (xs : Docs) → xs.uniqueKeys = true → compareItems path i xs xs = []
  | .nil, _ => by simp [compareItems, addItems]
  | .cons x xs, h => by
    have h2 : x.uniqueKeys = true ∧ xs.uniqueKeys = true := by
      simpa [Docs.uniqueKeys] using h
    simp only [compareItems, List.append_eq_nil]
    exact ⟨Compare_self _ x h2.1, compareItems_self path (i + 1) xs h2.2⟩
theorem compareKeys_sub (path : List PathElem) :
    (rest full : Fields) → rest.uniqueKeys = true →
      (∀ k v, rest.get? k = some v → full.get? k = some v) → compareKeys path rest full = []
  | .nil, _, _, _ => by simp [compareKeys]
  | .cons k v rest, full, h, hsub => by
    have h3 : (rest.get? k = none ∧ v.uniqueKeys = true) ∧ rest.uniqueKeys = true := by
      simpa [Fields.uniqueKeys] using h
    have hk : full.get? k = some v := hsub k v (by simp [Fields.get?])
    simp only [compareKeys, hk, List.append_eq_nil]
    refine ⟨Compare_self _ v h3.1.2, compareKeys_sub path rest full h3.2 ?_⟩
    intro k1 v1 hk1
    apply hsub
    have hne : k ≠ k1 := by
      intro heq
      rw [heq] at h3
      rw [h3.1.1] at hk1
      cases hk1
    simp [Fields.get?, hne, hk1]
end

theorem addItems_eq_nil (path : List PathElem) (i : Nat) (ys : Docs)
    (h : addItems path i ys = []) : ys = .nil := by
  cases ys with
  | nil => rfl
  | cons y ys => simp [addItems] at h

mutual
theorem deepEqual_of_Compare (path : List PathElem) :
    (x y : Doc) → Compare path x y = [] → deepEqual x y = true
  | .null, .null, _ => by simp [deepEqual]
  | .bool a, .bool b, h => by
    by_cases hab : a = b <;> simp [Compare, hab] at h
    simp [deepEqual, hab]
  | .num a, .num b, h => by
    by_cases hab : a = b <;> simp [Compare, hab] at h
    simp [deepEqual, hab]
  | .str a, .str b, h => by
    by_cases hab : a = b <;> simp [Compare, hab] at h
    simp [deepEqual, hab]
  | .seq a, .seq b, h => by
    simp only [Compare] at h
    simp only [deepEqual]
    exact itemsEqual_of_compareItems path 0 a b h
  | .map a, .map b, h => by
    simp only [Compare, List.append_eq_nil] at h
    simp only [deepEqual, Bool.and_eq_true, List.all_eq_true]
    exact ⟨entriesEqual_of_compareKeys path a b h.1, (addKeys_eq_nil path a b).1 h.2⟩
  | .null, .bool _, h | .null, .num _, h | .null, .str _, h | .null, .seq _, h
  | .null, .map _, h => by simp [Compare] at h
  | .bool _, .null, h | .bool _, .num _, h | .bool _, .str _, h | .bool _, .seq _, h
  | .bool _, .map _, h => by simp [Compare] at h
  | .num _, .null, h | .num _, .bool _, h | .num _, .str _, h | .num _, .seq _, h
  | .num _, .map _, h => by simp [Compare] at h
  | .str _, .null, h | .str _, .bool _, h | .str _, .num _, h | .str _, .seq _, h
  | .str _, .map _, h => by simp [Compare] at h
  | .seq _, .null, h | .seq _, .bool _, h | .seq _, .num _, h | .seq _, .str _, h
  | .seq _, .map _, h => by simp [Compare] at h
  | .map _, .null, h | .map _, .bool _, h | .map _, .num _, h | .map _, .str _, h
  | .map _, .seq _, h => by simp [Compare] at h
theorem itemsEqual_of_compareItems (path : List PathElem) (i : Nat) :
    (xs ys : Docs) → compareItems path i xs ys = [] → itemsEqual xs ys = true
  | .nil, ys, h => by
    simp only [compareItems] at h
    rw [addItems_eq_nil path i ys h]
    simp [itemsEqual]
  | .cons x xs, .nil, h => by simp [compareItems] at h
  | .cons x xs, .cons y ys, h => by
    simp only [compareItems, List.append_eq_nil] at h
    simp only [itemsEqual, Bool.and_eq_true]
    exact ⟨deepEqual_of_Compare _ x y h.1, itemsEqual_of_compareItems path (i + 1) xs ys h.2⟩
theorem entriesEqual_of_compareKeys (path : List PathElem) :
    (a b : Fields) → compareKeys path a b = [] → entriesEqual a b = true
  | .nil, _, _ => by simp [entriesEqual]
  | .cons k v rest, b, h => by
    simp only [compareKeys, List.append_eq_nil] at h
    simp only [entriesEqual, Bool.and_eq_true]
    refine ⟨?_, entriesEqual_of_compareKeys path rest b h.2⟩
    cases hk : b.get? k with
    | none => simp [hk] at h
    | some w =>
      simp only [hk] at h
      exact deepEqual_of_Compare _ v w h.1
end

theorem addKeys_path (path : List PathElem) (previous : Fields) : (current : Fields) →
    ∀ op ∈ addKeys path previous current, ∃ rest, op.path = path ++ rest
  | .nil => by simp [addKeys]
  | .cons k w rest => by
    intro op hop
    cases hk : previous.get? k with
    | none =>
      simp only [addKeys, hk, List.mem_cons] at hop
      rcases hop with rfl | hop
      · exact ⟨_, rfl⟩
      · exact addKeys_path path previous rest op hop
    | some v =>
      simp only [addKeys, hk] at hop
      exact addKeys_path path previous rest op hop

theorem addItems_path (path : List PathElem) : (i : Nat) → (ys : Docs) →
    ∀ op ∈ addItems path i ys, ∃ rest, op.path = path ++ rest
  | _, .nil => by simp [addItems]
  | i, .cons y ys => by
    intro op hop
    simp only [addItems, List.mem_cons] at hop
    rcases hop with rfl | hop
    · exact ⟨_, rfl⟩
    · exact addItems_path path (i + 1) ys op hop

theorem path_extend (p q : List PathElem) (op : DiffOp)
    (h : ∃ rest, op.path = (p ++ q) ++ rest) : ∃ rest, op.path = p ++ rest := by
  obtain ⟨rest, hr⟩ := h
  exact ⟨q ++ rest, by rw [hr, List.append_assoc]⟩

mutual
theorem Compare_path (path : List PathElem) :
    (x y : Doc) → ∀ op ∈ Compare path x y, ∃ rest, op.path = path ++ rest
  | .seq a, .seq b => by
    simp only [Compare]
    exact compareItems_path path 0 a b
  | .map a, .map b => by
    intro op hop
    simp only [Compare, List.mem_append] at hop
    rcases hop with hop | hop
    · exact compareKeys_path path a b op hop
    · exact addKeys_path path a b op hop
  | .null, .null => by simp [Compare]
  | .bool a, .bool b | .num a, .num b | .str a, .str b => by
    intro op hop
    by_cases hab : a = b <;> simp [Compare, hab] at hop
    subst hop
    exact ⟨[], by simp [DiffOp.path]⟩
  | .null, .bool _ | .null, .num _ | .null, .str _ | .null, .seq _ | .null, .map _
  | .bool _, .null | .bool _, .num _ | .bool _, .str _ | .bool _, .seq _ | .bool _, .map _
  | .num _, .null | .num _, .bool _ | .num _, .str _ | .num _, .seq _ | .num _, .map _
  | .str _, .null | .str _, .bool _ | .str _, .num _ | .str _, .seq _ | .str _, .map _
  | .seq _, .null | .seq _, .bool _ | .seq _, .num _ | .seq _, .str _ | .seq _, .map _
  | .map _, .null | .map _, .bool _ | .map _, .num _ | .map _, .str _ | .map _, .seq _ => by
    intro op hop
    simp only [Compare, List.mem_singleton] at hop
    subst hop
    exact ⟨[], by simp [DiffOp.path]⟩
theorem compareItems_path (path : List PathElem) (i : Nat) :
    (xs ys : Docs) → ∀ op ∈ compareItems path i xs ys, ∃ rest, op.path = path ++ rest
  | .nil, ys => by
    simp only [compareItems]
    exact addItems_path path i ys
  | .cons x xs, .nil => by
    intro op hop
    simp only [compareItems, List.mem_cons] at hop
    rcases hop with rfl | hop
    · exact ⟨_, rfl⟩
    · exact compareItems_path path (i + 1) xs .nil op hop
  | .cons x xs, .cons y ys => by
    intro op hop
    simp only [compareItems, List.mem_append] at hop
    rcases hop with hop | hop
    · exact path_extend _ _ _ (Compare_path _ x y op hop)
    · exact compareItems_path path (i + 1) xs ys op hop
theorem compareKeys_path (path : List PathElem) :
    (a b : Fields) → ∀ op ∈ compareKeys path a b, ∃ rest, op.path = path ++ rest
  | .nil, _ => by simp [compareKeys]
  | .cons k v rest, b => by
    intro op hop
    simp only [compareKeys, List.mem_append] at hop
    rcases hop with hop | hop
    · cases hk : b.get? k with
      | none =>
        simp only [hk, List.mem_singleton] at hop
        subst hop
        exact ⟨_, rfl⟩
      | some w =>
        simp only [hk] at hop
        exact path_extend _ _ _ (Compare_path _ v w op hop)
    · exact compareKeys_path path rest b op hop
end

theorem compareKeys_mem (path : List PathElem) : (a b : Fields) → (k : String) → (v : Doc) →
    a.get? k = some v →
    ∀ op ∈ (match b.get? k with
      | some w => Compare (path ++ [PathElem.key k]) v w
      | none => [DiffOp.remove (path ++ [PathElem.key k]) v]), op ∈ compareKeys path a b
  | .nil, _, _, _, h => by simp [Fields.get?] at h
  | .cons k0 v0 rest, b, k, v, h => by
    intro op hop
    simp only [compareKeys, List.mem_append]
    by_cases hk : k0 = k
    · simp only [Fields.get?, hk, if_true, Option.some.injEq] at h
      subst hk h
      exact Or.inl hop
    · simp only [Fields.get?, hk, if_false] at h
      exact Or.inr (compareKeys_mem path rest b k v h op hop)

theorem addKeys_mem (path : List PathElem) (a : Fields) : (b : Fields) → (k : String) →
    (w : Doc) → a.get? k = none → b.get? k = some w →
    DiffOp.add (path ++ [.key k]) w ∈ addKeys path a b
  | .nil, _, _, _, h => by simp [Fields.get?] at h
  | .cons k0 w0 rest, k, w, ha, h => by
    by_cases hk : k0 = k
    · simp only [Fields.get?, hk, if_true, Option.some.injEq] at h
      subst hk h
      simp [addKeys, ha]
    · simp only [Fields.get?, hk, if_false] at h
      have ih := addKeys_mem path a rest k w ha h
      cases hk0 : a.get? k0 with
      | none => simp [addKeys, hk0, ih]
      | some v0 => simp [addKeys, hk0, ih]

/-- The scenarios 2 and 3 of the specification, on the tree diff. -/
theorem Compare_scenarios :
    Compare [] (.map pending) (.map running)
      = [.modify [.key "phase"] (.str "Pending") (.str "Running")] ∧
    Compare []
        (.map (.cons "list" (.seq (.cons (.num 1) (.cons (.num 2) (.cons (.num 3) .nil)))) .nil))
        (.map (.cons "list" (.seq (.cons (.num 1) (.cons (.num 2) .nil))) .nil))
      = [.remove [.key "list", .index 2] (.num 3)] := by
  decide

/-! ## Claims on the tree diff -/

/-- C5: diff identity.  For every document with unique map keys, whatever
its nesting of null, booleans, numbers, strings, sequences and mappings,
comparing it with itself gives the empty result at every path; so the diff
the loops take between two equal consecutive snapshots is not modified. -/
theorem diff_identity (d : Doc) (h : d.uniqueKeys = true) :
    (∀ path, Compare path d d = []) ∧
    (∀ o, d = .map o → specLib.modified (specLib.compareObjects o o) = false) := by
  refine ⟨fun path => Compare_self path d h, ?_⟩
  intro o ho
  subst ho
  simp [specLib, Compare_self [] _ h]

/-- Witness of C5 on a pod object with a nested status. -/
theorem diff_identity_witness :
    (Doc.map (pod "web" (.map running))).uniqueKeys = true ∧
    Compare [] (.map (pod "web" (.map running))) (.map (pod "web" (.map running))) = [] :=
  ⟨by decide, (diff_identity (.map (pod "web" (.map running))) (by decide)).1 []⟩

/-- C6: key-set completeness of the mapping diff.  For mappings a and b and
a key k of either, unless a[k] and b[k] are both present and deeply equal,
the comparison of a and b has an operation whose path starts with k: the
Remove of a[k] when k is only in a, the Add of b[k] when k is only in b,
and every operation of the comparison of a[k] with b[k], of which there is
at least one, when k is in both.  The example of the specification
evaluates as stated. -/
theorem key_set_completeness (a b : Fields) (k : String)
    (hk : k ∈ a.keys ∨ k ∈ b.keys)
    (hne : ¬ ∃ v w, a.get? k = some v ∧ b.get? k = some w ∧ deepEqual v w = true) :
    (∃ op ∈ Compare [] (.map a) (.map b), op.path.head? = some (.key k)) ∧
    (∀ v, a.get? k = some v → b.get? k = none →
      DiffOp.remove [.key k] v ∈ Compare [] (.map a) (.map b)) ∧
    (∀ w, a.get? k = none → b.get? k = some w →
      DiffOp.add [.key k] w ∈ Compare [] (.map a) (.map b)) ∧
    (∀ v w, a.get? k = some v → b.get? k = some w →
      Compare [.key k] v w ≠ [] ∧
      ∀ op ∈ Compare [.key k] v w,
        op ∈ Compare [] (.map a) (.map b) ∧ op.path.head? = some (.key k)) ∧
    Compare [] (.map (.cons "a" (.num 1) .nil))
        (.map (.cons "a" (.num 1) (.cons "b" (.num 2) .nil)))
      = [.add [.key "b"] (.num 2)] := by
  have hrem : ∀ v, a.get? k = some v → b.get? k = none →
      DiffOp.remove [.key k] v ∈ Compare [] (.map a) (.map b) := by
    intro v hv hb
    have := compareKeys_mem [] a b k v hv (DiffOp.remove [.key k] v) (by simp [hb])
    simp [Compare, this]
  have hadd : ∀ w, a.get? k = none → b.get? k = some w →
      DiffOp.add [.key k] w ∈ Compare [] (.map a) (.map b) := by
    intro w ha hw
    have := addKeys_mem [] a b k w ha hw
    simp only [List.nil_append] at this
    simp [Compare, this]
  have hboth : ∀ v w, a.get? k = some v → b.get? k = some w →
      Compare [.key k] v w ≠ [] ∧
      ∀ op ∈ Compare [.key k] v w,
        op ∈ Compare [] (.map a) (.map b) ∧ op.path.head? = some (.key k) := by
    intro v w hv hw
    refine ⟨fun hnil => hne ⟨v, w, hv, hw, deepEqual_of_Compare _ v w hnil⟩, ?_⟩
    intro op hop
    constructor
    · have := compareKeys_mem [] a b k v hv op (by simpa [hw] using hop)
      simp [Compare, this]
    · obtain ⟨rest, hr⟩ := Compare_path [.key k] v w op hop
      simp [hr]
  refine ⟨?_, hrem, hadd, hboth, rfl⟩
  cases ha : a.get? k with
  | none =>
    cases hb : b.get? k with
    | none =>
      rcases hk with hk | hk
      · have := get?_isSome_of_mem_keys a k hk
        simp [ha] at this
      · have := get?_isSome_of_mem_keys b k hk
        simp [hb] at this
    | some w => exact ⟨_, hadd w ha hb, rfl⟩
  | some v =>
    cases hb : b.get? k with
    | none => exact ⟨_, hrem v ha hb, rfl⟩
    | some w =>
      obtain ⟨hnonempty, hall⟩ := hboth v w ha hb
      cases hc : Compare [.key k] v w with
      | nil => exact absurd hc hnonempty
      | cons op ops => exact ⟨op, (hall op (by simp [hc])).1, (hall op (by simp [hc])).2⟩

/-- Witness of C6: the status of the pod goes from Pending to Running, and
the diff has an operation under the key status. -/
theorem key_set_completeness_witness :
    ("status" ∈ (pod "web" (.map pending)).keys ∨ "status" ∈ (pod "web" (.map running)).keys) ∧
    ∃ op ∈ Compare [] (.map (pod "web" (.map pending))) (.map (pod "web" (.map running))),
      op.path.head? = some (.key "status") :=
  ⟨by decide,
   (key_set_completeness (pod "web" (.map pending)) (pod "web" (.map running)) "status"
      (by decide)
      (by
        rintro ⟨v, w, hv, hw, hvw⟩
        have h1 : v = .map pending := by
          have : (pod "web" (.map pending)).get? "status" = some (.map pending) := by decide
          rw [this] at hv
          exact (Option.some.inj hv).symm
        have h2 : w = .map running := by
          have : (pod "web" (.map running)).get? "status" = some (.map running) := by decide
          rw [this] at hw
          exact (Option.some.inj hw).symm
        subst h1 h2
        revert hvw
        decide)).1⟩
end Kubespy
